import Mathlib

/-!
Verification development for the normalization / deduplication / quality core
of the slm-data-pipeline repository (src/scripts/normalize_dedup.py and
src/scripts/quality.py).  Python strings are modelled as lists of characters;
Python dictionaries holding optional configuration and record fields are
modelled as structures with `Option` fields plus the `.get(key, default)`
defaults from the source.  Fallible code (a `json.loads` call that can raise)
is modelled with `Option`.
-/

/-- Strings are modelled as lists of characters. -/
abbrev Str := List Char

/-- Conversion from Lean string literals, used only to build concrete inputs. -/
def toStr (s : String) : Str := s.data

/-- Python whitespace test for the characters relevant here (the ASCII
whitespace characters recognised by `str.strip` / `str.split`). -/
def isWsChar (c : Char) : Bool :=
  c = ' ' || c = '\t' || c = '\n' || c = '\r' || c = '\x0b' || c = '\x0c'

/-- Python `str.lstrip()`: drop leading whitespace. -/
def lstrip (s : Str) : Str := s.dropWhile isWsChar

/-- Python `str.rstrip()`: drop trailing whitespace. -/
def rstrip (s : Str) : Str := (lstrip s.reverse).reverse

/-- Python `str.strip()`: drop whitespace at both ends. -/
def strip (s : Str) : Str := rstrip (lstrip s)

/-- Worker for `str.splitlines()`.  `acc` is the current line accumulated in
reverse; the flag records whether the previous character was a carriage
return, so that a CRLF pair produces a single line break. -/
def slGo : Str → Str → Bool → List Str
  | [], acc, _ => if acc.isEmpty then [] else [acc.reverse]
  | c :: rest, acc, lastCR =>
    if c = '\n' then
      if lastCR then slGo rest acc false
      else acc.reverse :: slGo rest [] false
    else if c = '\r' then acc.reverse :: slGo rest [] true
    else slGo rest (c :: acc) false

/-- Python `str.splitlines()` (for the line-break characters `\n`, `\r`, `\r\n`). -/
def splitlines (s : Str) : List Str := slGo s [] false

/-- Worker for `str.split()` (split on whitespace runs, no empty tokens). -/
def splitWsGo : Str → Str → List Str
  | [], acc => if acc.isEmpty then [] else [acc.reverse]
  | c :: rest, acc =>
    if isWsChar c then
      if acc.isEmpty then splitWsGo rest []
      else acc.reverse :: splitWsGo rest []
    else splitWsGo rest (c :: acc)

/-- Python `str.split()`: whitespace tokenisation. -/
def splitWs (s : Str) : List Str := splitWsGo s []

/-- Python `sep.join(parts)` for a one-character separator. -/
def joinSep (sep : Char) : List Str → Str
  | [] => []
  | [l] => l
  | l :: l' :: ls => l ++ sep :: joinSep sep (l' :: ls)

/-- The blank-line test used by the normalizer: `ln.strip() == ''`. -/
def isBlankL (l : Str) : Bool := (strip l).isEmpty

/-- The blank-collapsing loop of `_normalize_python` (normalize_dedup.py
lines 14-23): `blank` counts the consecutive blank lines seen so far; a blank
line is kept only when it is the first of its run. -/
def collapseGo : List Str → Nat → List Str
  | [], _ => []
  | l :: rest, blank =>
    if isBlankL l then
      if blank + 1 > 1 then collapseGo rest (blank + 1)
      else l :: collapseGo rest (blank + 1)
    else l :: collapseGo rest 0

/-- The normalizer `_normalize_python` (normalize_dedup.py lines 10-25): right-strip every
line, collapse runs of blank lines, then `'\n'.join(out).strip() + '\n'`. -/
def _normalize_python (code : Str) : Str :=
  strip (joinSep '\n' (collapseGo ((splitlines code).map rstrip) 0)) ++ ['\n']

/-- Modelled from the spec: `_hash_text` (normalize_dedup.py line 28) is a
blake3 hex digest from an external library; the spec requires only a
deterministic, collision-resistant fingerprint of the normalized text, so it
is modelled as an injective fingerprint (the identity embedding). -/
def hashText (text : Str) : Str := text

/-- The function `_shingles` (normalize_dedup.py lines 32-33): the space-joined windows of
`k` consecutive tokens, `max(0, len(tokens)-k+1)` of them. -/
def _shingles (tokens : List Str) (k : Nat) : List Str :=
  (List.range (tokens.length + 1 - k)).map (fun i => joinSep ' ' ((tokens.drop i).take k))

/-- The `quality_filters` configuration dictionary: recognised keys, all
optional (normalize_dedup.py lines 50-59 read them with `.get` defaults). -/
structure QualityFilters where
  enabled : Option Bool := none
  min_loc : Option Int := none
  max_loc : Option Int := none
  max_cyclomatic : Option ℚ := none
  max_nesting : Option Int := none
  drop_trivial : Option Bool := none
  allow_synthetic_docs : Option Bool := none
deriving DecidableEq

/-- The `dedup` configuration dictionary (normalize_dedup.py lines 86-88). -/
structure DedupCfg where
  shingle_size : Option Nat := none
  minhash_permutations : Option Nat := none
  lsh_threshold : Option ℚ := none
deriving DecidableEq

/-- The configuration object passed to `normalize_and_dedup`. -/
structure Cfg where
  quality_filters : Option QualityFilters := none
  dedup : Option DedupCfg := none

/-- An input record, as decoded from one JSONL line.  The nested dictionary
lookups of the source (`rec.get('loc', 0)`,
`(rec.get('metadata') or {}).get('quality') or {}` and the documentation
metadata) are flattened into optional fields; an absent field models an
absent key, and the `.get` defaults are applied at the use sites exactly as
in normalize_dedup.py lines 60-64 and 71. -/
structure RawRec where
  language : Str
  code : Str
  loc : Option Int := none
  cyclomatic_complexity : Option ℚ := none
  nesting_depth : Option Int := none
  synthetic : Option Bool := none
deriving DecidableEq, Inhabited

/-- A record annotated by the core with its normalized code and exact hash
(normalize_dedup.py lines 43-47). -/
structure Rec where
  raw : RawRec
  code_norm : Str
  exact_hash : Str
deriving DecidableEq, Inhabited

/-- The quality gate of `normalize_and_dedup` (normalize_dedup.py lines
49-73): `True` means the record is appended to `items`.  The source checks
`qf.get('enabled') is False` first and otherwise applies the four `continue`
conditions in order. -/
def passesGate (qfOpt : Option QualityFilters) (r : RawRec) : Bool :=
  let qf := qfOpt.getD {}
  if qf.enabled = some false then true
  else
    let min_loc := qf.min_loc.getD 5
    let max_loc := qf.max_loc.getD 400
    let max_cyc := qf.max_cyclomatic.getD 15
    let max_nest := qf.max_nesting.getD 5
    let drop_trivial := (qf.drop_trivial.getD true : Bool)
    let allow_synth := (qf.allow_synthetic_docs.getD true : Bool)
    let loc := r.loc.getD 0
    let cyc := r.cyclomatic_complexity.getD 1
    let nest := r.nesting_depth.getD 0
    if loc < min_loc ∨ loc > max_loc then false
    else if cyc > max_cyc ∨ nest > max_nest then false
    else if drop_trivial = true ∧ loc ≤ min_loc ∧ cyc ≤ 1 then false
    else if allow_synth = false ∧ r.synthetic.getD false = true then false
    else true

/-- Annotation of one decoded record (normalize_dedup.py lines 43-47):
normalize the code for the supported language (verbatim otherwise) and
compute the exact hash of the normalized text. -/
def annotateRec (r : RawRec) : Rec :=
  let cn := if r.language = toStr "python" then _normalize_python r.code else r.code
  { raw := r, code_norm := cn, exact_hash := hashText cn }

/-- The reading loop of `normalize_and_dedup` (normalize_dedup.py lines
39-73) over the concatenated lines of the input files.  `none` models a line
on which `json.loads` raises, which aborts the whole call (there is no
try/except around it), hence the `Option` result. -/
def ingestGo (qfOpt : Option QualityFilters) : List (Option RawRec) → Option (List Rec)
  | [] => some []
  | none :: _ => none
  | some r :: rest =>
    match ingestGo qfOpt rest with
    | none => none
    | some tail => some (if passesGate qfOpt r then annotateRec r :: tail else tail)

/-- The exact-dedup loop (normalize_dedup.py lines 76-83): `seen` is the set
of exact hashes already kept; the first record carrying each hash is kept, in
input order. -/
def exactDedupGo : List Rec → List Str → List Rec
  | [], _ => []
  | r :: rest, seen =>
    if r.exact_hash ∈ seen then exactDedupGo rest seen
    else r :: exactDedupGo rest (r.exact_hash :: seen)

/-- Exact dedup over the gated items. -/
def exactDedup (items : List Rec) : List Rec := exactDedupGo items []

/-- Modelled from the spec: the largest 32-bit hash value, the initial slot
value of a datasketch `MinHash` (external library), which a signature keeps
in every slot for which no shingle exists. -/
def maxHash32 : Nat := 2 ^ 32 - 1

/-- Modelled from the spec: a MinHash signature (spec section 4.4, built by
the external datasketch library in normalize_dedup.py lines 95-97).  For each
of `perms` hash functions (the abstract family `hashFam`), the slot is the
minimum hash value over all shingles. -/
def minhashSig (hashFam : Nat → Str → Nat) (perms : Nat) (shingles : List Str) : List Nat :=
  (List.range perms).map (fun i => (shingles.map (hashFam i)).foldl min maxHash32)

/-- Modelled from the spec: estimated Jaccard similarity of two signatures,
the fraction of matching MinHash slots (spec section 4.5), written with
`mkRat` (equal to the division for a nonempty signature). -/
def simFrac (a b : List Nat) : ℚ :=
  mkRat ((a.zip b).countP (fun p => p.1 == p.2) : Int) a.length

/-- Modelled from the spec: `lsh.query` over the fully-built index
(normalize_dedup.py line 107) returns the keys of all inserted signatures
whose estimated similarity to the queried one meets or exceeds the
threshold (spec section 4.5). -/
def lshNeighbors (threshold : ℚ) (sigs : List (List Nat)) (i : Nat) : List Nat :=
  (List.range sigs.length).filter (fun j => threshold ≤ simFrac (sigs.getD i []) (sigs.getD j []))

/-- The greedy near-dup filter (normalize_dedup.py lines 101-112): walk the
records in input order; a record already marked dropped is skipped, otherwise
it is kept and all its other neighbors are marked dropped. -/
def nearDedupGo (nbrs : Nat → List Nat) : List (Nat × Rec) → List Nat → List Rec
  | [], _ => []
  | (i, r) :: rest, dropped =>
    if i ∈ dropped then nearDedupGo nbrs rest dropped
    else r :: nearDedupGo nbrs rest (dropped ++ (nbrs i).filter (fun j => j ≠ i))

/-- The near-dedup pass (normalize_dedup.py lines 85-112): build a signature
from the whitespace tokens of each record's `code_norm`, then run the greedy
first-seen-wins filter over the spec-modelled neighbor query. -/
def nearDedup (hashFam : Nat → Str → Nat) (k perms : Nat) (threshold : ℚ)
    (uniq : List Rec) : List Rec :=
  let sigs := uniq.map (fun r => minhashSig hashFam perms (_shingles (splitWs r.code_norm) k))
  nearDedupGo (lshNeighbors threshold sigs) uniq.enum []

/-- The summary returned by `normalize_and_dedup` (lines 114-119); `kept` is
the list of records written to `kept_records.jsonl`, one JSON line per
record (lines 121-123). -/
structure Summary where
  total : Nat
  exact_unique : Nat
  near_unique : Nat
  kept : List Rec
deriving DecidableEq

/-- The batch driver `normalize_and_dedup` (normalize_dedup.py lines 36-125): ingest & gate,
exact dedup, near dedup, and the summary counts.  `hashFam` is the abstract
MinHash hash family of the external library; the dedup configuration is read
with its `.get` defaults (lines 86-88).  A line that fails to decode makes
the whole call raise, modelled by `none`. -/
def normalizeAndDedup (hashFam : Nat → Str → Nat) (cfg : Cfg)
    (input : List (Option RawRec)) : Option Summary :=
  match ingestGo cfg.quality_filters input with
  | none => none
  | some items =>
    let uniq := exactDedup items
    let dd := cfg.dedup.getD {}
    let k := dd.shingle_size.getD 7
    let perms := dd.minhash_permutations.getD 128
    let threshold := dd.lsh_threshold.getD (mkRat 85 100)
    let kept := nearDedup hashFam k perms threshold uniq
    some { total := items.length, exact_unique := uniq.length,
           near_unique := kept.length, kept := kept }

/-- Spec-side blank-run collapsing, following the words of spec section 4.1
("collapse runs of ≥2 consecutive blank lines to exactly one"): the flag
records whether we are inside a blank run whose first line was already kept. -/
def collapseRunsGo : List Str → Bool → List Str
  | [], _ => []
  | l :: rest, inRun =>
    if isBlankL l then
      if inRun then collapseRunsGo rest true
      else l :: collapseRunsGo rest true
    else l :: collapseRunsGo rest false

/-- Drop the trailing lines satisfying `isBlankL`. -/
def dropTrailingBlanks (ls : List Str) : List Str :=
  (ls.reverse.dropWhile isBlankL).reverse

/-- The normalization contract exactly as the spec words it (section 4.1):
right-trim every line, collapse runs of ≥2 consecutive blank lines to exactly
one, strip leading and trailing blank lines, and end with exactly one
trailing newline. -/
def specNormalize (code : Str) : Str :=
  let ls := (splitlines code).map rstrip
  let cs := collapseRunsGo ls false
  let ts := dropTrailingBlanks (cs.dropWhile isBlankL)
  joinSep '\n' ts ++ ['\n']

/-- The amended normalization contract: as `specNormalize`, except that the
final step strips all leading and trailing whitespace of the joined text
(which removes leading and trailing blank lines and, in addition, any leading
whitespace of the first non-blank line), then appends one newline. -/
def amendedNormalize (code : Str) : Str :=
  let ls := (splitlines code).map rstrip
  let cs := collapseRunsGo ls false
  strip (joinSep '\n' cs) ++ ['\n']

/-- Python's substring test `needle in hay`. -/
def isSubstr : Str → Str → Bool
  | needle, [] => needle.isEmpty
  | needle, c :: t => needle.isPrefixOf (c :: t) || isSubstr needle t

/-- Python `str.lower()` for the character set used here. -/
def lowerStr (s : Str) : Str := s.map Char.toLower

/-- Round-half-to-even to an integer, the rounding of Python's `round`. -/
def roundHalfEven (q : ℚ) : ℤ :=
  let f := ⌊q⌋
  if q - f < mkRat 1 2 then f
  else if mkRat 1 2 < q - f then f + 1
  else if Even f then f else f + 1

/-- Python's `round(x, 4)`, modelled over exact rationals. -/
def roundTo4 (q : ℚ) : ℚ :=
  (roundHalfEven (q * 10000) : ℚ) / 10000

/-- The dictionary returned by `DocumentationQualityScorer.score`
(quality.py lines 111-118). -/
structure ScoreResult where
  score : ℚ
  tier : Str
  param_coverage : ℚ
  return_coverage : ℚ
  example_bonus : ℚ
  doc_length_score : ℚ

/-- The method `DocumentationQualityScorer.score` (quality.py lines 86-118), for a
scorer constructed with `expected_len` (default 60).  Python floats are
modelled as exact rationals; the weights 0.45 / 0.25 / 0.20 / 0.10 are the
exact decimal constants of the source. -/
def scorerScore (expected_len : Nat) (func_name : Str) (params : List Str)
    (docstring : Option Str) : ScoreResult :=
  let doc := docstring.getD []
  let lower := lowerStr doc
  let covered := params.countP (fun p => !p.isEmpty && isSubstr (lowerStr p) lower)
  let param_cov : ℚ := if params.isEmpty then 1 else (covered : ℚ) / (max 1 params.length : ℚ)
  let return_cov : ℚ :=
    if isSubstr (toStr "return") lower || isSubstr (toStr "returns") lower then 1 else 0
  let example_bonus : ℚ :=
    if isSubstr (toStr "example") lower || isSubstr (toStr "::") doc
       || isSubstr (toStr "```") doc then 1 else 0
  let dl : ℚ := ((splitWs doc).length : ℚ)
  let doc_length_score : ℚ := max 0 (min 1 (dl / (expected_len : ℚ)))
  let score := (45 / 100 : ℚ) * param_cov + (25 / 100 : ℚ) * return_cov
    + (20 / 100 : ℚ) * doc_length_score + (10 / 100 : ℚ) * example_bonus
  { score := roundTo4 score
    tier := if score ≥ mkRat 7 10 then toStr "high_quality"
            else if score ≥ mkRat 4 10 then toStr "medium_quality"
            else toStr "low_quality"
    param_coverage := param_cov
    return_coverage := return_cov
    example_bonus := example_bonus
    doc_length_score := doc_length_score }

/-- Python `str.splitlines(True)` (keepends), used by `split_code_for_completion`
(quality.py line 151). -/
def splitlinesKeepends : Str → Str → List Str
  | [], acc => if acc.isEmpty then [] else [acc.reverse]
  | '\r' :: '\n' :: rest, acc => ('\n' :: '\r' :: acc).reverse :: splitlinesKeepends rest []
  | '\r' :: rest, acc => ('\r' :: acc).reverse :: splitlinesKeepends rest []
  | '\n' :: rest, acc => ('\n' :: acc).reverse :: splitlinesKeepends rest []
  | c :: rest, acc => splitlinesKeepends rest (c :: acc)

/-- A completion-split candidate `(prefix, completion, completion_type)`. -/
abbrev Cand := Str × Str × Str

/-- The nested `add` of `split_code_for_completion` (quality.py lines
153-157): join the requested line slices and append the candidate only when
the concatenation reparses. -/
def addCand (parse : Str → Option α) (lines : List Str) (out : List Cand)
    (pidx eidx : Nat) (ctype : Str) : List Cand :=
  let pre := (lines.take pidx).flatten
  let comp := ((lines.drop pidx).take (eidx - pidx)).flatten
  if (parse (pre ++ comp)).isSome then out ++ [(pre, comp, ctype)] else out

/-- The splitter `split_code_for_completion` (quality.py lines 138-176).  `parse` is the
abstract `ast.parse`-based `safe_parse` (Python standard library, `none` for
unparsable input) and `walkTargets` abstracts the `ast.walk` loop of lines
159-172, which derives the `(prefix_idx, end_idx, completion_type)` triples
passed to `add` from the syntax tree.  The trailing 3-line fallback of lines
174-175 also goes through `add`. -/
def splitCodeForCompletion (parse : Str → Option α) (walkTargets : α → List (Nat × Nat × Str))
    (code : Str) : List Cand :=
  match parse code with
  | none => []
  | some tree =>
    let lines := splitlinesKeepends code []
    let out := (walkTargets tree).foldl
      (fun acc t => addCand parse lines acc t.1 t.2.1 t.2.2) []
    if out.isEmpty && decide (lines.length > 3) then
      addCand parse lines [] (lines.length - 3) lines.length (toStr "method_body")
    else out

/-- A trivial stand-in for the abstract MinHash hash family, used where the
result does not depend on it. -/
def hf0 : Nat → Str → Nat := fun _ _ => 0

/-- A minimal python record with only the mandatory fields, as in the
repository's own test `test_dedup_keeps_first`. -/
def mkPyRec (code : String) : RawRec := { language := toStr "python", code := toStr code }

/-- The three-record input of the repository's test `test_dedup_keeps_first`
(src/tests/test_normalize_dedup.py lines 17-24): records carrying only
`language`, `code` (and path/line fields irrelevant to the gate), no `loc`. -/
def inputTest : List (Option RawRec) :=
  [some (mkPyRec "def f():\n    return 1\n"),
   some (mkPyRec "def f():\n    return 1\n"),
   some (mkPyRec "def g():\n    return 2\n")]

/-- The configuration of that test: only a `dedup` section, no
`quality_filters` key. -/
def cfgTest : Cfg :=
  { dedup := some { shingle_size := some 2, minhash_permutations := some 64,
                    lsh_threshold := some (mkRat 9 10) } }

/-- Slot values of four hand-built 20-slot signatures realising similarities
sim(1,2)=0.65, sim(2,3)=sim(2,4)=0.75, sim(1,3)=sim(1,4)=0.4, sim(3,4)=0.5. -/
def sigV1 (i : Nat) : Nat := if i < 8 ∨ 15 ≤ i then i else 100 + i

/-- Second hand-built signature (the all-agree reference vector). -/
def sigV2 (i : Nat) : Nat := i

/-- Third hand-built signature. -/
def sigV3 (i : Nat) : Nat := if i < 15 then i else 200 + i

/-- Fourth hand-built signature. -/
def sigV4 (i : Nat) : Nat := if 5 ≤ i then i else 300 + i

/-- A hash family under which the four one-token records "a".."d" receive
exactly the four hand-built signatures. -/
def hf7 : Nat → Str → Nat := fun i s =>
  if s = toStr "a" then sigV1 i
  else if s = toStr "b" then sigV2 i
  else if s = toStr "c" then sigV3 i
  else if s = toStr "d" then sigV4 i
  else 0

/-- Four distinct one-token records, in input order. -/
def input7 : List (Option RawRec) :=
  [some (mkPyRec "a"), some (mkPyRec "b"), some (mkPyRec "c"), some (mkPyRec "d")]

/-- Configuration with the gate disabled and one-token shingles over 20
permutations, at a chosen LSH threshold. -/
def cfg7 (t : ℚ) : Cfg :=
  { quality_filters := some { enabled := some false },
    dedup := some { shingle_size := some 1, minhash_permutations := some 20,
                    lsh_threshold := some t } }

/-- Items list for the C3 witness: two records with identical normalized
code followed by a distinct one. -/
def c3Items : List Rec :=
  [{ raw := mkPyRec "a", code_norm := toStr "a\n", exact_hash := hashText (toStr "a\n") },
   { raw := mkPyRec "a2", code_norm := toStr "a\n", exact_hash := hashText (toStr "a\n") },
   { raw := mkPyRec "b", code_norm := toStr "b\n", exact_hash := hashText (toStr "b\n") }]

/-- Single-record input for the C10 witness. -/
def inputC10 : List (Option RawRec) := [some (mkPyRec "a")]

/-- The summary produced on that input. -/
def sC10 : Summary :=
  { total := 1, exact_unique := 1, near_unique := 1,
    kept := [{ raw := mkPyRec "a", code_norm := toStr "a\n", exact_hash := toStr "a\n" }] }

/-- Adjacent lines never both blank. -/
def NoTwoBlank (ls : List Str) : Prop :=
  List.Chain' (fun a b => ¬(isBlankL a = true ∧ isBlankL b = true)) ls

/-- The canonical value of `'\n'.join(c).strip()` for a list of right-trimmed
lines: drop the leading and trailing blank lines and left-strip the first
remaining line. -/
def canonJoin (c : List Str) : Str :=
  match c.dropWhile isBlankL with
  | [] => []
  | h :: t => joinSep '\n' (lstrip h :: dropTrailingBlanks t)

/-! ## Helper lemmas -/

theorem ingestGo_eq_none (qfOpt : Option QualityFilters) :
    ∀ (input : List (Option RawRec)), none ∈ input → ingestGo qfOpt input = none := by
  intro input h
  induction input with
  | nil => cases h
  | cons hd tl ih =>
    cases hd with
    | none => rfl
    | some r =>
      have htl : none ∈ tl := by
        cases h with
        | tail _ h' => exact h'
      simp only [ingestGo, ih htl]

theorem exactDedupGo_length_le (items : List Rec) :
    ∀ (seen : List Str), (exactDedupGo items seen).length ≤ items.length := by
  induction items with
  | nil => intro seen; simp [exactDedupGo]
  | cons r rest ih =>
    intro seen
    by_cases h : r.exact_hash ∈ seen
    · simp only [exactDedupGo, if_pos h, List.length_cons]
      exact Nat.le_succ_of_le (ih seen)
    · simp only [exactDedupGo, if_neg h, List.length_cons]
      exact Nat.succ_le_succ (ih _)

theorem nearDedupGo_length_le (nbrs : Nat → List Nat) (l : List (Nat × Rec)) :
    ∀ (dropped : List Nat), (nearDedupGo nbrs l dropped).length ≤ l.length := by
  induction l with
  | nil => intro dropped; simp [nearDedupGo]
  | cons p rest ih =>
    intro dropped
    obtain ⟨i, r⟩ := p
    by_cases h : i ∈ dropped
    · simp only [nearDedupGo, if_pos h, List.length_cons]
      exact Nat.le_succ_of_le (ih dropped)
    · simp only [nearDedupGo, if_neg h, List.length_cons]
      exact Nat.succ_le_succ (ih _)

/-! ## Claim theorems -/

/-- C1: the repository's own test `test_dedup_keeps_first` feeds three
records (with no `loc` field) and no `quality_filters` section and asserts
`total == 3`, the input count.  Evaluating the embedded `normalize_and_dedup`
on exactly that input yields `total = 0`: the default-configured quality gate
drops all three records (`loc` defaults to 0 < the default `min_loc` 5)
before they are counted, because `total` is computed from the post-gate
`items` list, not from the number of input records consumed. -/
theorem C1_total_counts_post_gate_items :
    (normalizeAndDedup hf0 cfgTest inputTest).map Summary.total = some 0
      ∧ inputTest.length = 3 := by
  exact ⟨by decide, by decide⟩

/-- C2 counterexample: an input whose second line fails to decode.  The
claim says the line is skipped and the batch completes; the embedded
`normalize_and_dedup` (faithful to the absent try/except around
`json.loads`) instead aborts the whole call, producing no summary. -/
theorem C2_counterexample :
    normalizeAndDedup hf0 {} [some (mkPyRec "x"), none] = none := by decide

/-- C2 (amended): a line that fails to decode as JSON is not skipped: it
makes `normalize_and_dedup` raise, aborting the whole batch — no remaining
record is processed and no summary is produced. -/
theorem C2_amended_malformed_aborts (hashFam : Nat → Str → Nat) (cfg : Cfg)
    (input : List (Option RawRec)) (h : none ∈ input) :
    normalizeAndDedup hashFam cfg input = none := by
  unfold normalizeAndDedup
  rw [ingestGo_eq_none cfg.quality_filters input h]

/-- C2 witness: the amended theorem applied to a concrete two-line input. -/
theorem C2_amended_malformed_aborts_witness :
    none ∈ [some (mkPyRec "x"), none]
      ∧ normalizeAndDedup hf0 {} [some (mkPyRec "y"), none] = none := by
  exact ⟨by decide, C2_amended_malformed_aborts hf0 {} [some (mkPyRec "y"), none] (by decide)⟩

/-- C6: the quality gate drops a record (returns `false`) exactly when the
gate is not explicitly disabled and at least one of the six drop conditions
of the claim holds, with the configured thresholds read with their source
defaults.  The right-hand side is a plain disjunction, so the keep/drop
outcome is independent of the evaluation order of the checks. -/
theorem C6_gate_drop_iff (qfOpt : Option QualityFilters) (r : RawRec) :
    passesGate qfOpt r = false ↔
      ((qfOpt.getD {}).enabled ≠ some false
        ∧ (r.loc.getD 0 < (qfOpt.getD {}).min_loc.getD 5
           ∨ r.loc.getD 0 > (qfOpt.getD {}).max_loc.getD 400
           ∨ r.cyclomatic_complexity.getD 1 > (qfOpt.getD {}).max_cyclomatic.getD 15
           ∨ r.nesting_depth.getD 0 > (qfOpt.getD {}).max_nesting.getD 5
           ∨ ((qfOpt.getD {}).drop_trivial.getD true = true
              ∧ r.loc.getD 0 ≤ (qfOpt.getD {}).min_loc.getD 5
              ∧ r.cyclomatic_complexity.getD 1 ≤ 1)
           ∨ ((qfOpt.getD {}).allow_synthetic_docs.getD true = false
              ∧ r.synthetic.getD false = true))) := by
  simp only [passesGate]
  split_ifs with h1 h2 h3 h4 h5 <;> simp_all <;> tauto

/-- C7 counterexample: four records with pairwise slot-match similarities
0.65 (1,2), 0.75 (2,3), 0.75 (2,4), 0.4 (1,3), 0.4 (1,4), 0.5 (3,4).
Raising the LSH threshold from 0.6 to 0.75 removes the (1,2) candidate pair,
so record 2 survives and greedily drops records 3 and 4: the number of kept
records decreases from 3 to 2 although the threshold rose. -/
theorem C7_counterexample :
    mkRat 3 5 ≤ mkRat 3 4
      ∧ (normalizeAndDedup hf7 (cfg7 (mkRat 3 5)) input7).map Summary.near_unique = some 3
      ∧ (normalizeAndDedup hf7 (cfg7 (mkRat 3 4)) input7).map Summary.near_unique = some 2 := by
  exact ⟨by decide, by decide, by decide⟩

/-- C7 (amended): raising `lsh_threshold` never adds a candidate neighbor
pair — the near-dup candidate relation is antitone in the threshold — but the
count of records kept by the greedy first-seen-wins clustering is not
monotone in the threshold and can decrease when the threshold is raised. -/
theorem C7_amended_neighbors_antitone (t t' : ℚ) (sigs : List (List Nat)) (i j : Nat)
    (hle : t ≤ t') (hj : j ∈ lshNeighbors t' sigs i) : j ∈ lshNeighbors t sigs i := by
  unfold lshNeighbors at hj ⊢
  rw [List.mem_filter] at hj ⊢
  exact ⟨hj.1, by
    have h2 := of_decide_eq_true hj.2
    exact decide_eq_true (le_trans hle h2)⟩

/-- C7 witness: the antitone statement applied at concrete signatures and
thresholds 1/4 ≤ 1/2. -/
theorem C7_amended_neighbors_antitone_witness :
    mkRat 1 4 ≤ mkRat 1 2
      ∧ 1 ∈ lshNeighbors (mkRat 1 4) [[0, 1], [0, 2]] 0 := by
  exact ⟨by decide,
    C7_amended_neighbors_antitone (mkRat 1 4) (mkRat 1 2) [[0, 1], [0, 2]] 0 1
      (by decide) (by decide)⟩

/-- C10: every summary produced by `normalize_and_dedup` satisfies
`near_unique ≤ exact_unique ≤ total`, and the kept-record list written to
`kept_records.jsonl` (one `json.dumps` line per kept record, lines 121-123 of
the source) has exactly `near_unique` entries. -/
theorem C10_summary_invariants (hashFam : Nat → Str → Nat) (cfg : Cfg)
    (input : List (Option RawRec)) (s : Summary)
    (h : normalizeAndDedup hashFam cfg input = some s) :
    s.near_unique ≤ s.exact_unique ∧ s.exact_unique ≤ s.total
      ∧ s.kept.length = s.near_unique := by
  unfold normalizeAndDedup at h
  cases hi : ingestGo cfg.quality_filters input with
  | none => rw [hi] at h; cases h
  | some items =>
    rw [hi] at h
    simp only [Option.some.injEq] at h
    subst h
    refine ⟨?_, ?_, rfl⟩
    · simp only [nearDedup]
      exact le_trans (nearDedupGo_length_le _ _ _) (le_of_eq (by simp))
    · exact exactDedupGo_length_le items []

theorem hashText_injective {a b : Str} (h : hashText a = hashText b) : a = b := h

theorem exactDedupGo_countP_zero (v : Str) :
    ∀ (items : List Rec) (seen : List Str),
      (∀ r ∈ items, r.exact_hash = hashText r.code_norm) → hashText v ∈ seen →
      (exactDedupGo items seen).countP (fun r => r.code_norm == v) = 0 := by
  intro items
  induction items with
  | nil => intro seen _ _; simp [exactDedupGo]
  | cons r rest ih =>
    intro seen hinv hs
    have hr : r.exact_hash = hashText r.code_norm := hinv r (List.mem_cons_self _ _)
    have hrest : ∀ x ∈ rest, x.exact_hash = hashText x.code_norm :=
      fun x hx => hinv x (List.mem_cons_of_mem _ hx)
    by_cases hmem : r.exact_hash ∈ seen
    · simp only [exactDedupGo, if_pos hmem]
      exact ih seen hrest hs
    · simp only [exactDedupGo, if_neg hmem, List.countP_cons]
      have hvr : (r.code_norm == v) = false := by
        apply beq_eq_false_iff_ne.mpr
        intro he
        exact hmem (by rw [hr, he]; exact hs)
      rw [hvr]
      simp only [if_neg Bool.false_ne_true, Nat.add_zero]
      exact ih _ hrest (List.mem_cons_of_mem _ hs)

theorem findNorm_cons_eq (v : Str) (r : Rec) (l : List Rec) (h : r.code_norm = v) :
    List.find? (fun x => x.code_norm == v) (r :: l) = some r := by
  simp [List.find?, h]

theorem findNorm_cons_ne (v : Str) (r : Rec) (l : List Rec) (h : r.code_norm ≠ v) :
    List.find? (fun x => x.code_norm == v) (r :: l)
      = List.find? (fun x => x.code_norm == v) l := by
  have hb : (r.code_norm == v) = false := beq_eq_false_iff_ne.mpr h
  simp [List.find?, hb]

theorem countNorm_cons_eq (v : Str) (r : Rec) (l : List Rec) (h : r.code_norm = v) :
    (r :: l).countP (fun x => x.code_norm == v)
      = l.countP (fun x => x.code_norm == v) + 1 := by
  simp [List.countP_cons, h]

theorem countNorm_cons_ne (v : Str) (r : Rec) (l : List Rec) (h : r.code_norm ≠ v) :
    (r :: l).countP (fun x => x.code_norm == v)
      = l.countP (fun x => x.code_norm == v) := by
  simp [List.countP_cons, h]

theorem exactDedupGo_cons_seen (r : Rec) (rest : List Rec) (seen : List Str)
    (h : r.exact_hash ∈ seen) :
    exactDedupGo (r :: rest) seen = exactDedupGo rest seen := by
  simp [exactDedupGo, h]

theorem exactDedupGo_cons_new (r : Rec) (rest : List Rec) (seen : List Str)
    (h : r.exact_hash ∉ seen) :
    exactDedupGo (r :: rest) seen = r :: exactDedupGo rest (r.exact_hash :: seen) := by
  simp [exactDedupGo, h]

theorem exactDedupGo_countP_find (v : Str) :
    ∀ (items : List Rec) (seen : List Str),
      (∀ r ∈ items, r.exact_hash = hashText r.code_norm) → hashText v ∉ seen →
      ((exactDedupGo items seen).countP (fun r => r.code_norm == v)
          = min 1 (items.countP (fun r => r.code_norm == v)))
      ∧ ((exactDedupGo items seen).find? (fun r => r.code_norm == v)
          = items.find? (fun r => r.code_norm == v)) := by
  intro items
  induction items with
  | nil => intro seen _ _; simp [exactDedupGo]
  | cons r rest ih =>
    intro seen hinv hs
    have hr : r.exact_hash = hashText r.code_norm := hinv r (List.mem_cons_self _ _)
    have hrest : ∀ x ∈ rest, x.exact_hash = hashText x.code_norm :=
      fun x hx => hinv x (List.mem_cons_of_mem _ hx)
    by_cases hv : r.code_norm = v
    · have hmem : r.exact_hash ∉ seen := by rw [hr, hv]; exact hs
      have hsin : hashText v ∈ r.exact_hash :: seen := by
        rw [hr, hv]; exact List.mem_cons_self _ _
      rw [exactDedupGo_cons_new r rest seen hmem]
      constructor
      · rw [countNorm_cons_eq v r _ hv, countNorm_cons_eq v r rest hv,
          exactDedupGo_countP_zero v rest _ hrest hsin]
        omega
      · rw [findNorm_cons_eq v r _ hv, findNorm_cons_eq v r rest hv]
    · have hne : hashText v ≠ r.exact_hash := by
        rw [hr]
        intro he
        exact hv (hashText_injective he.symm)
      by_cases hmem : r.exact_hash ∈ seen
      · rw [exactDedupGo_cons_seen r rest seen hmem, countNorm_cons_ne v r rest hv,
          findNorm_cons_ne v r rest hv]
        exact ih seen hrest hs
      · have hs' : hashText v ∉ r.exact_hash :: seen := by
          intro hin
          cases hin with
          | head => exact hne rfl
          | tail _ h' => exact hs h'
        rw [exactDedupGo_cons_new r rest seen hmem, countNorm_cons_ne v r _ hv,
          findNorm_cons_ne v r _ hv, countNorm_cons_ne v r rest hv,
          findNorm_cons_ne v r rest hv]
        exact ih (r.exact_hash :: seen) hrest hs'

/-- C3: if two records at input positions `i < j` of the items list reaching
the exact-dedup stage have identical `code_norm` (their hashes being the
fingerprints of their normalized code), then the deduplicated list contains
exactly one record with that `code_norm`, and it is the first record of the
items list with that `code_norm` (first appearance in input order). -/
theorem C3_exact_dedup_keeps_first (items : List Rec) (i j : Nat) (hij : i < j)
    (hj : j < items.length)
    (hinv : ∀ r ∈ items, r.exact_hash = hashText r.code_norm)
    (hnorm : (items.getD i default).code_norm = (items.getD j default).code_norm) :
    (exactDedup items).countP
        (fun r => r.code_norm == (items.getD i default).code_norm) = 1
      ∧ (exactDedup items).find?
          (fun r => r.code_norm == (items.getD i default).code_norm)
        = items.find? (fun r => r.code_norm == (items.getD i default).code_norm) := by
  have hi : i < items.length := lt_trans hij hj
  have hmem : items.getD i default ∈ items := by
    rw [List.getD_eq_getElem items default hi]
    exact List.getElem_mem hi
  have hpos : 0 < items.countP (fun r => r.code_norm == (items.getD i default).code_norm) := by
    rw [List.countP_pos_iff]
    exact ⟨items.getD i default, hmem, beq_iff_eq.mpr rfl⟩
  have h := exactDedupGo_countP_find (items.getD i default).code_norm items [] hinv
    (List.not_mem_nil _)
  refine ⟨?_, h.2⟩
  rw [exactDedup, h.1]
  omega

/-- C3 witness: the theorem applied to the concrete three-record items
list at positions 0 and 1. -/
theorem C3_exact_dedup_keeps_first_witness :
    ((0 : Nat) < 1 ∧ 1 < c3Items.length)
      ∧ ((exactDedup c3Items).countP
            (fun r => r.code_norm == (c3Items.getD 0 default).code_norm) = 1
         ∧ (exactDedup c3Items).find?
              (fun r => r.code_norm == (c3Items.getD 0 default).code_norm)
            = c3Items.find? (fun r => r.code_norm == (c3Items.getD 0 default).code_norm)) :=
  ⟨⟨by decide, by decide⟩,
    C3_exact_dedup_keeps_first c3Items 0 1 (by decide) (by decide) (by decide) (by decide)⟩

theorem addCand_mem {α : Type} (parse : Str → Option α) (lines : List Str)
    (out : List Cand) (pidx eidx : Nat) (ctype : Str) (x : Cand)
    (hx : x ∈ addCand parse lines out pidx eidx ctype) :
    x ∈ out ∨ (parse (x.1 ++ x.2.1)).isSome = true := by
  simp only [addCand] at hx
  by_cases h : (parse ((lines.take pidx).flatten
      ++ ((lines.drop pidx).take (eidx - pidx)).flatten)).isSome = true
  · rw [if_pos h] at hx
    rcases List.mem_append.mp hx with h1 | h2
    · exact Or.inl h1
    · right
      have hx2 : x = ((lines.take pidx).flatten,
          ((lines.drop pidx).take (eidx - pidx)).flatten, ctype) := by
        simpa using h2
      rw [hx2]
      exact h
  · rw [if_neg h] at hx
    exact Or.inl hx

theorem foldl_addCand_sound {α : Type} (parse : Str → Option α) (lines : List Str) :
    ∀ (ps : List (Nat × Nat × Str)) (acc : List Cand),
      (∀ x ∈ acc, (parse (x.1 ++ x.2.1)).isSome = true) →
      ∀ x ∈ ps.foldl (fun a t => addCand parse lines a t.1 t.2.1 t.2.2) acc,
        (parse (x.1 ++ x.2.1)).isSome = true := by
  intro ps
  induction ps with
  | nil => intro acc hacc x hx; exact hacc x hx
  | cons t ts ih =>
    intro acc hacc x hx
    simp only [List.foldl_cons] at hx
    refine ih _ ?_ x hx
    intro y hy
    rcases addCand_mem parse lines acc t.1 t.2.1 t.2.2 y hy with h | h
    · exact hacc y h
    · exact h

/-- C8: every candidate `(prefix, completion, completion_type)` present in
the list returned by `split_code_for_completion` — the structural candidates
and the trailing 3-line fallback alike — satisfies that `prefix + completion`
parses successfully, because every candidate is emitted through `add`, which
appends only after the reparse check succeeds. -/
theorem C8_candidates_reparse {α : Type} (parse : Str → Option α)
    (walkTargets : α → List (Nat × Nat × Str)) (code : Str) (pre comp ty : Str)
    (hmem : (pre, comp, ty) ∈ splitCodeForCompletion parse walkTargets code) :
    (parse (pre ++ comp)).isSome = true := by
  unfold splitCodeForCompletion at hmem
  cases hp : parse code with
  | none => rw [hp] at hmem; cases hmem
  | some tree =>
    rw [hp] at hmem
    simp only at hmem
    split at hmem
    · rcases addCand_mem parse (splitlinesKeepends code [])
        [] _ _ _ _ hmem with h | h
      · cases h
      · exact h
    · exact foldl_addCand_sound parse (splitlinesKeepends code [])
        (walkTargets tree) [] (by intro x hx; cases hx) _ hmem

/-- C8 witness: the theorem applied to a concrete run with a one-candidate
walk and an always-succeeding parser. -/
theorem C8_candidates_reparse_witness :
    ((([] : Str), toStr "x\n", toStr "method_body") ∈
        splitCodeForCompletion (fun _ => some ()) (fun (_ : Unit) => [(0, 1, toStr "method_body")])
          (toStr "x\n"))
    ∧ (((fun (_ : Str) => (some () : Option Unit)) (([] : Str) ++ toStr "x\n")).isSome = true) := by
  refine ⟨by decide, ?_⟩
  exact C8_candidates_reparse (fun _ => some ()) (fun (_ : Unit) => [(0, 1, toStr "method_body")])
    (toStr "x\n") [] (toStr "x\n") (toStr "method_body") (by decide)

theorem collapseGo_eq_collapseRunsGo :
    ∀ (ls : List Str) (b : Nat), collapseGo ls b = collapseRunsGo ls (decide (0 < b)) := by
  intro ls
  induction ls with
  | nil => intro b; rfl
  | cons l rest ih =>
    intro b
    by_cases hb : isBlankL l = true
    · by_cases h0 : 0 < b
      · have hgt : b + 1 > 1 := by omega
        have h1 : 0 < b + 1 := by omega
        simp only [collapseGo, collapseRunsGo, hb, if_pos hgt, if_true, ih,
          decide_eq_true h0, decide_eq_true h1]
      · have hb0 : b = 0 := by omega
        subst hb0
        simp only [collapseGo, collapseRunsGo, hb, if_true, ih]
        norm_num
    · simp only [collapseGo, collapseRunsGo, hb, if_false, ih]
      norm_num

/-- C4 counterexample: on the input `"  x"` (one non-blank line with leading
whitespace) the source normalizer returns `"x\n"` while the transformation
worded by the spec (right-trim lines, collapse blank runs, strip
leading/trailing blank lines, one trailing newline) returns `"  x\n"`: the
source additionally strips the leading whitespace of the first non-blank
line, because line 24 applies `str.strip()` to the whole joined text. -/
theorem C4_counterexample :
    _normalize_python (toStr "  x") = toStr "x\n"
      ∧ specNormalize (toStr "  x") = toStr "  x\n"
      ∧ _normalize_python (toStr "  x") ≠ specNormalize (toStr "  x") := by
  exact ⟨by decide, by decide, by decide⟩

/-- C4 (amended): for the supported language the normalized text equals the
input transformed by exactly these operations — right-trim every line,
collapse each run of ≥2 consecutive blank lines to exactly one blank line,
strip all leading and trailing whitespace of the joined text (which strips
leading/trailing blank lines and also any leading whitespace of the first
non-blank line), and end with exactly one trailing newline; for an
unsupported language the normalized text is the input verbatim. -/
theorem C4_amended_normalizer (r : RawRec) :
    (annotateRec r).code_norm
      = if r.language = toStr "python" then amendedNormalize r.code else r.code := by
  by_cases h : r.language = toStr "python"
  · simp only [annotateRec, if_pos h, _normalize_python, amendedNormalize,
      collapseGo_eq_collapseRunsGo]
    rfl
  · simp only [annotateRec, if_neg h]

/-- C10 witness: the invariants theorem applied to a concrete run. -/
theorem C10_summary_invariants_witness :
    normalizeAndDedup hf7 (cfg7 (mkRat 3 4)) inputC10 = some sC10
      ∧ (sC10.near_unique ≤ sC10.exact_unique ∧ sC10.exact_unique ≤ sC10.total
         ∧ sC10.kept.length = sC10.near_unique) :=
  ⟨by decide, C10_summary_invariants hf7 (cfg7 (mkRat 3 4)) inputC10 sC10 (by decide)⟩

theorem isPrefixOf_append_right {n : Str} :
    ∀ {h : Str}, n.isPrefixOf h = true → ∀ (e : Str), n.isPrefixOf (h ++ e) = true := by
  induction n with
  | nil => intro h _ e; cases h ++ e <;> rfl
  | cons c n' ih =>
    intro h hp e
    cases h with
    | nil => cases hp
    | cons d h' =>
      simp only [List.isPrefixOf, Bool.and_eq_true] at hp
      simp only [List.cons_append, List.isPrefixOf, Bool.and_eq_true]
      exact ⟨hp.1, ih hp.2 e⟩

theorem isSubstr_nil_left (hay : Str) : isSubstr [] hay = true := by
  induction hay with
  | nil => rfl
  | cons c t ih => simp [isSubstr, List.isPrefixOf]

theorem isSubstr_append_right {n h : Str} (hs : isSubstr n h = true) (e : Str) :
    isSubstr n (h ++ e) = true := by
  induction h with
  | nil =>
    simp only [isSubstr, List.isEmpty_iff] at hs
    subst hs
    exact isSubstr_nil_left e
  | cons c t ih =>
    simp only [isSubstr, Bool.or_eq_true] at hs
    rcases hs with hp | hsub
    · simp only [List.cons_append, isSubstr, Bool.or_eq_true]
      left
      have := isPrefixOf_append_right hp e
      simpa using this
    · simp only [List.cons_append, isSubstr, Bool.or_eq_true]
      right
      exact ih hsub

theorem splitWsGo_append_sep (b : Str) :
    ∀ (a acc : Str), splitWsGo (a ++ ' ' :: b) acc = splitWsGo a acc ++ splitWsGo b [] := by
  intro a
  induction a with
  | nil =>
    intro acc
    by_cases hacc : acc.isEmpty
    · simp [splitWsGo, isWsChar, hacc]
    · simp [splitWsGo, isWsChar, hacc]
  | cons c a' ih =>
    intro acc
    by_cases hws : isWsChar c = true
    · by_cases hacc : acc.isEmpty
      · simp [splitWsGo, hws, hacc, ih]
      · simp [splitWsGo, hws, hacc, ih]
    · simp [splitWsGo, hws, ih]

theorem splitWs_append_sep (d p : Str) :
    splitWs (d ++ ' ' :: p) = splitWs d ++ splitWs p := by
  unfold splitWs
  exact splitWsGo_append_sep p d []

theorem roundHalfEven_le_floor_add_one (q : ℚ) : roundHalfEven q ≤ ⌊q⌋ + 1 := by
  simp only [roundHalfEven]
  split_ifs <;> omega

theorem floor_le_roundHalfEven (q : ℚ) : ⌊q⌋ ≤ roundHalfEven q := by
  simp only [roundHalfEven]
  split_ifs <;> omega

theorem roundHalfEven_mono {x y : ℚ} (h : x ≤ y) : roundHalfEven x ≤ roundHalfEven y := by
  have hf : ⌊x⌋ ≤ ⌊y⌋ := Int.floor_mono h
  rcases lt_or_eq_of_le hf with hlt | heq
  · calc roundHalfEven x ≤ ⌊x⌋ + 1 := roundHalfEven_le_floor_add_one x
      _ ≤ ⌊y⌋ := by omega
      _ ≤ roundHalfEven y := floor_le_roundHalfEven y
  · simp only [roundHalfEven]
    rw [← heq]
    have hr : x - (⌊x⌋ : ℚ) ≤ y - (⌊x⌋ : ℚ) := by linarith
    split_ifs <;> first | omega | linarith

theorem roundTo4_mono {x y : ℚ} (h : x ≤ y) : roundTo4 x ≤ roundTo4 y := by
  unfold roundTo4
  have h1 : x * 10000 ≤ y * 10000 := by linarith
  have h2 : ((roundHalfEven (x * 10000) : ℚ)) ≤ (roundHalfEven (y * 10000) : ℚ) := by
    exact_mod_cast roundHalfEven_mono h1
  exact (div_le_div_iff_of_pos_right (by norm_num)).mpr h2

/-- C9: appending to the docstring a whitespace-separated token equal to a
parameter name that the docstring did not previously cover cannot decrease
the score returned by `DocumentationQualityScorer.score`: parameter coverage,
return coverage, length score and example bonus are all monotone under
appending text, the weights are nonnegative, and the final half-even rounding
to 4 decimals is monotone. -/
theorem C9_doc_score_monotone (expected_len : Nat) (func_name : Str) (params : List Str)
    (doc p : Str) (hmem : p ∈ params)
    (hnc : (!p.isEmpty && isSubstr (lowerStr p) (lowerStr doc)) = false) :
    (scorerScore expected_len func_name params (some doc)).score
      ≤ (scorerScore expected_len func_name params (some (doc ++ ' ' :: p))).score := by
  have hlow : lowerStr (doc ++ ' ' :: p) = lowerStr doc ++ ' ' :: lowerStr p := by
    simp only [lowerStr, List.map_append, List.map_cons]
    rfl
  have hsubmono : ∀ n : Str, isSubstr n (lowerStr doc) = true →
      isSubstr n (lowerStr (doc ++ ' ' :: p)) = true := by
    intro n hn
    rw [hlow]
    exact isSubstr_append_right hn _
  have hsubmono2 : ∀ n : Str, isSubstr n doc = true → isSubstr n (doc ++ ' ' :: p) = true :=
    fun n hn => isSubstr_append_right hn _
  have hcov : params.countP (fun q => !q.isEmpty && isSubstr (lowerStr q) (lowerStr doc))
      ≤ params.countP (fun q => !q.isEmpty && isSubstr (lowerStr q) (lowerStr (doc ++ ' ' :: p))) := by
    apply List.countP_mono_left
    intro x hx hpx
    rw [Bool.and_eq_true] at hpx ⊢
    exact ⟨hpx.1, hsubmono _ hpx.2⟩
  have hdl : ((splitWs doc).length : ℚ) ≤ ((splitWs (doc ++ ' ' :: p)).length : ℚ) := by
    rw [splitWs_append_sep doc p, List.length_append]
    push_cast
    linarith [Nat.cast_nonneg (α := ℚ) (splitWs p).length]
  simp only [scorerScore, Option.getD_some]
  apply roundTo4_mono
  refine add_le_add (add_le_add (add_le_add ?_ ?_) ?_) ?_
  · -- parameter coverage
    refine mul_le_mul_of_nonneg_left ?_ (by norm_num)
    split_ifs with h
    · exact le_refl 1
    · have hD : (0 : ℚ) < max 1 (params.length : ℚ) :=
        lt_of_lt_of_le one_pos (le_max_left _ _)
      have hc : ((params.countP (fun q => !q.isEmpty && isSubstr (lowerStr q) (lowerStr doc)) : ℚ))
          ≤ ((params.countP (fun q => !q.isEmpty
              && isSubstr (lowerStr q) (lowerStr (doc ++ ' ' :: p))) : ℚ)) := by
        exact_mod_cast hcov
      exact (div_le_div_iff_of_pos_right hD).mpr hc
  · -- return coverage
    refine mul_le_mul_of_nonneg_left ?_ (by norm_num)
    by_cases h1 : (isSubstr (toStr "return") (lowerStr doc)
        || isSubstr (toStr "returns") (lowerStr doc)) = true
    · have h2 : (isSubstr (toStr "return") (lowerStr (doc ++ ' ' :: p))
          || isSubstr (toStr "returns") (lowerStr (doc ++ ' ' :: p))) = true := by
        rcases Bool.or_eq_true_iff.mp h1 with h | h
        · exact Bool.or_eq_true_iff.mpr (Or.inl (hsubmono _ h))
        · exact Bool.or_eq_true_iff.mpr (Or.inr (hsubmono _ h))
      rw [if_pos h1, if_pos h2]
    · rw [if_neg h1]
      split_ifs <;> norm_num
  · -- documentation length
    refine mul_le_mul_of_nonneg_left ?_ (by norm_num)
    have hdiv : ((splitWs doc).length : ℚ) / (expected_len : ℚ)
        ≤ ((splitWs (doc ++ ' ' :: p)).length : ℚ) / (expected_len : ℚ) := by
      rw [div_eq_mul_inv, div_eq_mul_inv]
      exact mul_le_mul_of_nonneg_right hdl (inv_nonneg.mpr (Nat.cast_nonneg _))
    exact max_le_max (le_refl 0) (min_le_min (le_refl 1) hdiv)
  · -- example bonus
    refine mul_le_mul_of_nonneg_left ?_ (by norm_num)
    by_cases h1 : (isSubstr (toStr "example") (lowerStr doc) || isSubstr (toStr "::") doc
        || isSubstr (toStr "```") doc) = true
    · have h2 : (isSubstr (toStr "example") (lowerStr (doc ++ ' ' :: p))
          || isSubstr (toStr "::") (doc ++ ' ' :: p)
          || isSubstr (toStr "```") (doc ++ ' ' :: p)) = true := by
        rcases Bool.or_eq_true_iff.mp h1 with h | h
        · rcases Bool.or_eq_true_iff.mp h with h' | h'
          · exact Bool.or_eq_true_iff.mpr (Or.inl (Bool.or_eq_true_iff.mpr (Or.inl (hsubmono _ h'))))
          · exact Bool.or_eq_true_iff.mpr (Or.inl (Bool.or_eq_true_iff.mpr (Or.inr (hsubmono2 _ h'))))
        · exact Bool.or_eq_true_iff.mpr (Or.inr (hsubmono2 _ h))
      rw [if_pos h1, if_pos h2]
    · rw [if_neg h1]
      split_ifs <;> norm_num

/-- C9 witness: the theorem applied to the scorer defaults, one parameter
`"x"` and the empty docstring. -/
theorem C9_doc_score_monotone_witness :
    ((toStr "x") ∈ [toStr "x"]
      ∧ (!(toStr "x").isEmpty && isSubstr (lowerStr (toStr "x")) (lowerStr (toStr ""))) = false)
    ∧ (scorerScore 60 (toStr "f") [toStr "x"] (some (toStr ""))).score
        ≤ (scorerScore 60 (toStr "f") [toStr "x"] (some (toStr "" ++ ' ' :: toStr "x"))).score :=
  ⟨⟨by decide, by decide⟩,
    C9_doc_score_monotone 60 (toStr "f") [toStr "x"] (toStr "") (toStr "x")
      (by decide) (by decide)⟩

theorem dropWhile_dropWhile_self {α : Type} (p : α → Bool) :
    ∀ (l : List α), (l.dropWhile p).dropWhile p = l.dropWhile p := by
  intro l
  induction l with
  | nil => rfl
  | cons c t ih =>
    by_cases hc : p c = true
    · rw [List.dropWhile_cons_of_pos hc]
      exact ih
    · rw [List.dropWhile_cons_of_neg hc, List.dropWhile_cons_of_neg hc]

theorem lstrip_lstrip (s : Str) : lstrip (lstrip s) = lstrip s :=
  dropWhile_dropWhile_self isWsChar s

theorem rstrip_rstrip (s : Str) : rstrip (rstrip s) = rstrip s := by
  unfold rstrip
  rw [List.reverse_reverse, lstrip_lstrip]

theorem lstrip_append_of_ne_nil {a : Str} (h : lstrip a ≠ []) (b : Str) :
    lstrip (a ++ b) = lstrip a ++ b := by
  induction a with
  | nil => exact absurd rfl h
  | cons c t ih =>
    by_cases hc : isWsChar c = true
    · rw [lstrip, List.dropWhile_cons_of_pos hc] at h
      rw [List.cons_append, lstrip, List.dropWhile_cons_of_pos hc, lstrip,
        List.dropWhile_cons_of_pos hc]
      exact ih h
    · rw [List.cons_append, lstrip, List.dropWhile_cons_of_neg hc, lstrip,
        List.dropWhile_cons_of_neg hc, List.cons_append]

theorem lstrip_append_of_nil {a : Str} (h : lstrip a = []) (b : Str) :
    lstrip (a ++ b) = lstrip b := by
  induction a with
  | nil => rfl
  | cons c t ih =>
    by_cases hc : isWsChar c = true
    · rw [lstrip, List.dropWhile_cons_of_pos hc] at h
      rw [List.cons_append, lstrip, List.dropWhile_cons_of_pos hc]
      exact ih h
    · rw [lstrip, List.dropWhile_cons_of_neg hc] at h
      cases h

theorem lstrip_cons_ws {c : Char} (hc : isWsChar c = true) (s : Str) :
    lstrip (c :: s) = lstrip s := by
  rw [lstrip, List.dropWhile_cons_of_pos hc]
  rfl

theorem rstrip_append_ws {c : Char} (hc : isWsChar c = true) (s : Str) :
    rstrip (s ++ [c]) = rstrip s := by
  unfold rstrip
  rw [List.reverse_append, List.reverse_singleton, List.singleton_append,
    lstrip_cons_ws hc]

theorem rstrip_append_of_ne_nil {b : Str} (h : rstrip b ≠ []) (a : Str) :
    rstrip (a ++ b) = a ++ rstrip b := by
  have hb : lstrip b.reverse ≠ [] := by
    intro he
    apply h
    unfold rstrip
    rw [he, List.reverse_nil]
  unfold rstrip
  rw [List.reverse_append, lstrip_append_of_ne_nil hb, List.reverse_append,
    List.reverse_reverse]

theorem rfixed_of_reverse_head {l : Str} {ch : Char} {t : Str}
    (he : l.reverse = ch :: t) (hc : isWsChar ch = false) : rstrip l = l := by
  unfold rstrip
  rw [he, lstrip, List.dropWhile_cons_of_neg (by rw [hc]; exact Bool.false_ne_true),
    ← he, List.reverse_reverse]

theorem reverse_head_of_rfixed {l : Str} (hf : rstrip l = l) (hne : l ≠ []) :
    ∃ ch t, l.reverse = ch :: t ∧ isWsChar ch = false := by
  cases he : l.reverse with
  | nil => exact absurd (by simpa using he) hne
  | cons ch t =>
    refine ⟨ch, t, rfl, ?_⟩
    by_contra hcw
    have hcw' : isWsChar ch = true := by
      cases hx : isWsChar ch
      · exact absurd hx hcw
      · rfl
    have h1 : lstrip l.reverse = l.reverse := by
      have := congrArg List.reverse hf
      unfold rstrip at this
      rw [List.reverse_reverse] at this
      exact this
    rw [he, lstrip_cons_ws hcw'] at h1
    have h2 : (lstrip t).length = (ch :: t).length := by rw [h1]
    have h3 : (lstrip t).length ≤ t.length :=
      List.Sublist.length_le (List.dropWhile_sublist _)
    simp only [List.length_cons] at h2
    omega

theorem lstrip_ne_nil_of_rfixed {l : Str} (hf : rstrip l = l) (hne : l ≠ []) :
    lstrip l ≠ [] := by
  intro he
  have hall : ∀ x ∈ l, isWsChar x = true := List.dropWhile_eq_nil_iff.mp he
  obtain ⟨ch, t, hrev, hcw⟩ := reverse_head_of_rfixed hf hne
  have hmem : ch ∈ l := by
    rw [← List.mem_reverse, hrev]
    exact List.mem_cons_self _ _
  rw [hall ch hmem] at hcw
  cases hcw

theorem rstrip_lstrip_of_rfixed {l : Str} (hf : rstrip l = l) :
    rstrip (lstrip l) = lstrip l := by
  by_cases hl : lstrip l = []
  · rw [hl]
    rfl
  · have hne : l ≠ [] := by
      intro he
      apply hl
      rw [he]
      rfl
    obtain ⟨ch, t, hrev, hcw⟩ := reverse_head_of_rfixed hf hne
    obtain ⟨w, hw⟩ : lstrip l <:+ l := List.dropWhile_suffix _
    have hr : (lstrip l).reverse ++ w.reverse = ch :: t := by
      rw [← List.reverse_append, hw, hrev]
    cases hlr : (lstrip l).reverse with
    | nil => exact absurd (by simpa using hlr) hl
    | cons ch' t' =>
      rw [hlr] at hr
      simp only [List.cons_append, List.cons.injEq] at hr
      exact rfixed_of_reverse_head hlr (hr.1 ▸ hcw)

theorem isBlankL_iff_nil_of_rfixed {l : Str} (hf : rstrip l = l) :
    isBlankL l = true ↔ l = [] := by
  constructor
  · intro hb
    by_contra hne
    have h1 : strip l = lstrip l := by
      unfold strip
      exact rstrip_lstrip_of_rfixed hf
    rw [isBlankL, h1, List.isEmpty_iff] at hb
    exact lstrip_ne_nil_of_rfixed hf hne hb
  · intro he
    subst he
    rfl

theorem mem_rstrip {x : Char} {l : Str} (hx : x ∈ rstrip l) : x ∈ l := by
  unfold rstrip at hx
  rw [List.mem_reverse] at hx
  rw [← List.mem_reverse]
  exact List.Sublist.mem hx (List.dropWhile_sublist _)

theorem mem_lstrip {x : Char} {l : Str} (hx : x ∈ lstrip l) : x ∈ l :=
  List.Sublist.mem hx (List.dropWhile_sublist _)

theorem joinSep_cons_cons (sep : Char) (h r : Str) (t : List Str) :
    joinSep sep (h :: r :: t) = h ++ sep :: joinSep sep (r :: t) := rfl

theorem joinSep_cons_of_ne_nil (sep : Char) (h : Str) {t : List Str} (ht : t ≠ []) :
    joinSep sep (h :: t) = h ++ sep :: joinSep sep t := by
  cases t with
  | nil => exact absurd rfl ht
  | cons r t' => rfl

theorem joinSep_append_singleton (sep : Char) (x : Str) :
    ∀ (c : List Str), c ≠ [] → joinSep sep (c ++ [x]) = joinSep sep c ++ sep :: x := by
  intro c
  induction c with
  | nil => intro hc; exact absurd rfl hc
  | cons a t ih =>
    intro _
    cases t with
    | nil => rfl
    | cons b t' =>
      have h1 : (a :: b :: t') ++ [x] = a :: ((b :: t') ++ [x]) := rfl
      rw [h1, joinSep_cons_of_ne_nil sep a (by simp), ih (by simp),
        joinSep_cons_cons, List.append_assoc]
      rfl

theorem slGo_mem_not_nl : ∀ (s acc : Str) (f : Bool),
    (∀ c ∈ acc, c ≠ '\n' ∧ c ≠ '\r') →
    ∀ l ∈ slGo s acc f, '\n' ∉ l ∧ '\r' ∉ l := by
  intro s
  induction s with
  | nil =>
    intro acc f hacc l hl
    simp only [slGo] at hl
    by_cases he : acc.isEmpty
    · rw [if_pos he] at hl
      cases hl
    · rw [if_neg he] at hl
      have : l = acc.reverse := by simpa using hl
      subst this
      constructor
      · intro hmem
        exact (hacc _ (List.mem_reverse.mp hmem)).1 rfl
      · intro hmem
        exact (hacc _ (List.mem_reverse.mp hmem)).2 rfl
  | cons c rest ih =>
    intro acc f hacc l hl
    simp only [slGo] at hl
    by_cases hn : c = '\n'
    · rw [if_pos hn] at hl
      by_cases hf : f = true
      · rw [if_pos hf] at hl
        exact ih acc false hacc l hl
      · rw [if_neg hf] at hl
        rcases List.mem_cons.mp hl with h1 | h1
        · subst h1
          constructor
          · intro hmem
            exact (hacc _ (List.mem_reverse.mp hmem)).1 rfl
          · intro hmem
            exact (hacc _ (List.mem_reverse.mp hmem)).2 rfl
        · exact ih [] false (by intro x hx; cases hx) l h1
    · rw [if_neg hn] at hl
      by_cases hr : c = '\r'
      · rw [if_pos hr] at hl
        rcases List.mem_cons.mp hl with h1 | h1
        · subst h1
          constructor
          · intro hmem
            exact (hacc _ (List.mem_reverse.mp hmem)).1 rfl
          · intro hmem
            exact (hacc _ (List.mem_reverse.mp hmem)).2 rfl
        · exact ih [] true (by intro x hx; cases hx) l h1
      · rw [if_neg hr] at hl
        refine ih (c :: acc) false ?_ l hl
        intro x hx
        rcases List.mem_cons.mp hx with h1 | h1
        · subst h1; exact ⟨hn, hr⟩
        · exact hacc x h1

theorem splitlines_mem_not_nl {s : Str} {l : Str} (hl : l ∈ splitlines s) :
    '\n' ∉ l ∧ '\r' ∉ l :=
  slGo_mem_not_nl s [] false (by intro x hx; cases hx) l hl

theorem slGo_append_clean : ∀ (a : Str), (∀ c ∈ a, c ≠ '\n' ∧ c ≠ '\r') →
    ∀ (s acc : Str), slGo (a ++ s) acc false = slGo s (a.reverse ++ acc) false := by
  intro a
  induction a with
  | nil => intro _ s acc; simp
  | cons c a' ih =>
    intro ha s acc
    have hc := ha c (List.mem_cons_self _ _)
    have ha' : ∀ x ∈ a', x ≠ '\n' ∧ x ≠ '\r' := fun x hx => ha x (List.mem_cons_of_mem _ hx)
    rw [List.cons_append]
    simp only [slGo, if_neg hc.1, if_neg hc.2]
    rw [ih ha' s (c :: acc)]
    congr 1
    simp

theorem splitlines_append_newline_cons {a : Str} (ha : ∀ c ∈ a, c ≠ '\n' ∧ c ≠ '\r')
    (rest : Str) : splitlines (a ++ '\n' :: rest) = a :: splitlines rest := by
  unfold splitlines
  rw [slGo_append_clean a ha ('\n' :: rest) []]
  simp [slGo]

theorem splitlines_joinSep_newline : ∀ (es : List Str), es ≠ [] →
    (∀ l ∈ es, '\n' ∉ l ∧ '\r' ∉ l) →
    splitlines (joinSep '\n' es ++ ['\n']) = es := by
  intro es
  induction es with
  | nil => intro h; exact absurd rfl h
  | cons x t ih =>
    intro _ hnl
    have hx : ∀ c ∈ x, c ≠ '\n' ∧ c ≠ '\r' := by
      intro c hc
      have h1 := hnl x (List.mem_cons_self _ _)
      constructor
      · intro he; subst he; exact h1.1 hc
      · intro he; subst he; exact h1.2 hc
    cases t with
    | nil =>
      have h1 : joinSep '\n' [x] ++ ['\n'] = x ++ '\n' :: [] := rfl
      rw [h1, splitlines_append_newline_cons hx]
      rfl
    | cons y t' =>
      rw [joinSep_cons_of_ne_nil '\n' x (by simp), List.append_assoc, List.cons_append,
        splitlines_append_newline_cons hx]
      rw [ih (by simp) (fun l hl => hnl l (List.mem_cons_of_mem _ hl))]

theorem collapseGo_mem : ∀ (ls : List Str) (b : Nat) (l : Str),
    l ∈ collapseGo ls b → l ∈ ls := by
  intro ls
  induction ls with
  | nil => intro b l hl; cases hl
  | cons x t ih =>
    intro b l hl
    simp only [collapseGo] at hl
    by_cases hb : isBlankL x = true
    · rw [if_pos hb] at hl
      by_cases hgt : b + 1 > 1
      · rw [if_pos hgt] at hl
        exact List.mem_cons_of_mem _ (ih _ l hl)
      · rw [if_neg hgt] at hl
        rcases List.mem_cons.mp hl with h1 | h1
        · exact h1 ▸ List.mem_cons_self _ _
        · exact List.mem_cons_of_mem _ (ih _ l h1)
    · rw [if_neg hb] at hl
      rcases List.mem_cons.mp hl with h1 | h1
      · exact h1 ▸ List.mem_cons_self _ _
      · exact List.mem_cons_of_mem _ (ih _ l h1)

theorem collapseGo_chain_head : ∀ (ls : List Str) (b : Nat),
    NoTwoBlank (collapseGo ls b)
      ∧ (1 ≤ b → ∀ x, (collapseGo ls b).head? = some x → isBlankL x = false) := by
  intro ls
  induction ls with
  | nil =>
    intro b
    exact ⟨List.chain'_nil, by intro _ x hx; cases hx⟩
  | cons l t ih =>
    intro b
    by_cases hb : isBlankL l = true
    · by_cases hgt : b + 1 > 1
      · have h1 : collapseGo (l :: t) b = collapseGo t (b + 1) := by
          simp only [collapseGo, if_pos hb, if_pos hgt]
        rw [h1]
        exact ⟨(ih (b + 1)).1, fun _ => (ih (b + 1)).2 (by omega)⟩
      · have h1 : collapseGo (l :: t) b = l :: collapseGo t (b + 1) := by
          simp only [collapseGo, if_pos hb, if_neg hgt]
        rw [h1]
        constructor
        · rw [NoTwoBlank, List.chain'_cons']
          refine ⟨?_, (ih (b + 1)).1⟩
          intro y hy
          intro hcon
          have hy' := (ih (b + 1)).2 (by omega) y hy
          rw [hy'] at hcon
          exact Bool.false_ne_true hcon.2
        · intro hb1
          omega
    · have h1 : collapseGo (l :: t) b = l :: collapseGo t 0 := by
        simp only [collapseGo, if_neg hb]
      rw [h1]
      constructor
      · rw [NoTwoBlank, List.chain'_cons']
        refine ⟨?_, (ih 0).1⟩
        intro y hy hcon
        exact hb hcon.1
      · intro _ x hx
        simp only [List.head?_cons, Option.some.injEq] at hx
        subst hx
        cases h2 : isBlankL l with
        | false => rfl
        | true => exact absurd h2 hb
    
theorem collapseGo_one_eq_zero_of_head {ls : List Str}
    (h : ∀ x, ls.head? = some x → isBlankL x = false) :
    collapseGo ls 1 = collapseGo ls 0 := by
  cases ls with
  | nil => rfl
  | cons r t =>
    have hr : isBlankL r = false := h r rfl
    simp only [collapseGo, hr, Bool.false_eq_true, if_false]

theorem collapseGo_eq_self_of_chain : ∀ {ls : List Str}, NoTwoBlank ls →
    collapseGo ls 0 = ls := by
  intro ls
  induction ls with
  | nil => intro _; rfl
  | cons l t ih =>
    intro hch
    rw [NoTwoBlank, List.chain'_cons'] at hch
    by_cases hb : isBlankL l = true
    · have h1 : collapseGo (l :: t) 0 = l :: collapseGo t 1 := by
        simp only [collapseGo, if_pos hb]
        norm_num
      rw [h1, collapseGo_one_eq_zero_of_head, ih hch.2]
      intro x hx
      have := hch.1 x hx
      cases hx2 : isBlankL x
      · rfl
      · exact absurd ⟨hb, hx2⟩ this
    · have h1 : collapseGo (l :: t) 0 = l :: collapseGo t 0 := by
        simp only [collapseGo, hb, Bool.false_eq_true, if_false]
      rw [h1, ih hch.2]

theorem dropWhile_head_not {α : Type} (p : α → Bool) :
    ∀ (l : List α) (a : α) (t : List α), l.dropWhile p = a :: t → p a = false := by
  intro l
  induction l with
  | nil => intro a t h; cases h
  | cons x xs ih =>
    intro a t h
    by_cases hx : p x = true
    · rw [List.dropWhile_cons_of_pos hx] at h
      exact ih a t h
    · rw [List.dropWhile_cons_of_neg hx] at h
      injection h with h1 h2
      subst h1
      cases hq : p x
      · rfl
      · exact absurd hq hx

theorem dropTrailingBlanks_idem (t : List Str) :
    dropTrailingBlanks (dropTrailingBlanks t) = dropTrailingBlanks t := by
  unfold dropTrailingBlanks
  rw [List.reverse_reverse, dropWhile_dropWhile_self]

theorem mem_dropTrailingBlanks {l : Str} {t : List Str} (h : l ∈ dropTrailingBlanks t) :
    l ∈ t := by
  unfold dropTrailingBlanks at h
  rw [List.mem_reverse] at h
  have h1 := List.Sublist.mem h (List.dropWhile_sublist _)
  exact List.mem_reverse.mp h1

theorem map_rstrip_eq_self : ∀ {L : List Str}, (∀ l ∈ L, rstrip l = l) → L.map rstrip = L := by
  intro L
  induction L with
  | nil => intro _; rfl
  | cons x t ih =>
    intro h
    rw [List.map_cons, h x (List.mem_cons_self _ _),
      ih (fun l hl => h l (List.mem_cons_of_mem _ hl))]

theorem lstrip_joinSep_dropBlank : ∀ (c : List Str), (∀ l ∈ c, rstrip l = l) →
    lstrip (joinSep '\n' c) = lstrip (joinSep '\n' (c.dropWhile isBlankL)) := by
  intro c
  induction c with
  | nil => intro _; rfl
  | cons l rest ih =>
    intro hr
    by_cases hb : isBlankL l = true
    · have hl0 : l = [] :=
        (isBlankL_iff_nil_of_rfixed (hr l (List.mem_cons_self _ _))).mp hb
      rw [List.dropWhile_cons_of_pos hb]
      subst hl0
      cases rest with
      | nil => rfl
      | cons r t =>
        have h1 : joinSep '\n' (([] : Str) :: r :: t) = '\n' :: joinSep '\n' (r :: t) := rfl
        rw [h1, lstrip_cons_ws (by decide)]
        exact ih (fun l hl => hr l (List.mem_cons_of_mem _ hl))
    · rw [List.dropWhile_cons_of_neg hb]

theorem lstrip_joinSep_cons {h : Str} (hb : isBlankL h = false) (hf : rstrip h = h)
    (t : List Str) : lstrip (joinSep '\n' (h :: t)) = joinSep '\n' (lstrip h :: t) := by
  have hne : h ≠ [] := by
    intro he
    subst he
    exact absurd hb (by decide)
  have hlne : lstrip h ≠ [] := lstrip_ne_nil_of_rfixed hf hne
  cases t with
  | nil => rfl
  | cons r t' =>
    rw [joinSep_cons_cons, joinSep_cons_cons, lstrip_append_of_ne_nil hlne]

theorem rstrip_joinSep_dropTrailing : ∀ (t : List Str) (h' : Str),
    (∀ l ∈ t, rstrip l = l) → rstrip h' = h' → h' ≠ [] →
    rstrip (joinSep '\n' (h' :: t)) = joinSep '\n' (h' :: dropTrailingBlanks t) := by
  intro t
  induction t using List.reverseRecOn with
  | nil =>
    intro h' _ hf _
    exact hf
  | append_singleton t' x ih =>
    intro h' hr hf hne
    have hrt' : ∀ l ∈ t', rstrip l = l := fun l hl => hr l (List.mem_append_left _ hl)
    have hrx : rstrip x = x := hr x (List.mem_append_right _ (List.mem_singleton.mpr rfl))
    have hcons : h' :: (t' ++ [x]) = (h' :: t') ++ [x] := rfl
    rw [hcons, joinSep_append_singleton '\n' x (h' :: t') (by simp)]
    by_cases hbx : isBlankL x = true
    · have hx0 : x = [] := (isBlankL_iff_nil_of_rfixed hrx).mp hbx
      subst hx0
      have h2 : joinSep '\n' (h' :: t') ++ '\n' :: ([] : Str)
          = joinSep '\n' (h' :: t') ++ ['\n'] := rfl
      rw [h2, rstrip_append_ws (by decide), ih h' hrt' hf hne]
      have h3 : dropTrailingBlanks (t' ++ [([] : Str)]) = dropTrailingBlanks t' := by
        unfold dropTrailingBlanks
        rw [List.reverse_append, List.reverse_singleton, List.singleton_append,
          List.dropWhile_cons_of_pos (by decide)]
      rw [h3]
    · have hbx' : isBlankL x = false := by
        cases hq : isBlankL x
        · rfl
        · exact absurd hq hbx
      have hxne : x ≠ [] := by
        intro he
        rw [he] at hbx'
        exact absurd hbx' (by decide)
      obtain ⟨ch, t2, hrev, hcw⟩ := reverse_head_of_rfixed hrx hxne
      have hnlx : rstrip ('\n' :: x) = '\n' :: x := by
        refine rfixed_of_reverse_head (t := t2 ++ ['\n']) ?_ hcw
        rw [List.reverse_cons, hrev]
        rfl
      rw [rstrip_append_of_ne_nil (by rw [hnlx]; exact List.cons_ne_nil _ _), hnlx]
      have h3 : dropTrailingBlanks (t' ++ [x]) = t' ++ [x] := by
        unfold dropTrailingBlanks
        rw [List.reverse_append, List.reverse_singleton, List.singleton_append,
          List.dropWhile_cons_of_neg (by rw [hbx']; exact Bool.false_ne_true)]
        simp
      rw [h3, hcons, joinSep_append_singleton '\n' x (h' :: t') (by simp)]

theorem strip_joinSep_canon (c : List Str) (hr : ∀ l ∈ c, rstrip l = l) :
    strip (joinSep '\n' c) = canonJoin c := by
  unfold strip canonJoin
  rw [lstrip_joinSep_dropBlank c hr]
  cases hd : c.dropWhile isBlankL with
  | nil => rfl
  | cons h t =>
    have hmemh : h ∈ c := by
      have h1 : h ∈ c.dropWhile isBlankL := by rw [hd]; exact List.mem_cons_self _ _
      exact List.Sublist.mem h1 (List.dropWhile_sublist _)
    have hbh : isBlankL h = false := dropWhile_head_not _ c h t hd
    have hfh : rstrip h = h := hr h hmemh
    have hmemt : ∀ l ∈ t, rstrip l = l := by
      intro l hl
      apply hr
      have h1 : l ∈ c.dropWhile isBlankL := by rw [hd]; exact List.mem_cons_of_mem _ hl
      exact List.Sublist.mem h1 (List.dropWhile_sublist _)
    have hneh : h ≠ [] := by
      intro he
      rw [he] at hbh
      exact absurd hbh (by decide)
    rw [lstrip_joinSep_cons hbh hfh t]
    exact rstrip_joinSep_dropTrailing t (lstrip h) hmemt (rstrip_lstrip_of_rfixed hfh)
      (lstrip_ne_nil_of_rfixed hfh hneh)

/-- C5: `_normalize_python` is idempotent: normalizing a second time changes
nothing, because the first pass produces text whose lines are right-trimmed,
contain no carriage returns, have no two adjacent blank lines, start with a
non-whitespace character and end (before the final newline) with a
non-whitespace character — and every stage of the normalizer fixes such
text. -/
theorem C5_normalize_idempotent (code : Str) :
    _normalize_python (_normalize_python code) = _normalize_python code := by
  have hnorm : _normalize_python code
      = strip (joinSep '\n' (collapseGo ((splitlines code).map rstrip) 0)) ++ ['\n'] := rfl
  set c := collapseGo ((splitlines code).map rstrip) 0 with hc
  have hrfix : ∀ l ∈ c, rstrip l = l := by
    intro l hl
    have h1 := collapseGo_mem _ 0 l (hc ▸ hl)
    obtain ⟨y, hy, hyl⟩ := List.mem_map.mp h1
    rw [← hyl]
    exact rstrip_rstrip y
  have hnl : ∀ l ∈ c, '\n' ∉ l ∧ '\r' ∉ l := by
    intro l hl
    have h1 := collapseGo_mem _ 0 l (hc ▸ hl)
    obtain ⟨y, hy, hyl⟩ := List.mem_map.mp h1
    have h2 := splitlines_mem_not_nl hy
    subst hyl
    exact ⟨fun hm => h2.1 (mem_rstrip hm), fun hm => h2.2 (mem_rstrip hm)⟩
  have hchain : NoTwoBlank c := by rw [hc]; exact (collapseGo_chain_head _ 0).1
  have hstrip : strip (joinSep '\n' c) = canonJoin c := strip_joinSep_canon c hrfix
  cases hd : c.dropWhile isBlankL with
  | nil =>
    have h1 : canonJoin c = [] := by unfold canonJoin; rw [hd]
    have h2 : _normalize_python code = ['\n'] := by
      rw [hnorm, hstrip, h1]
      rfl
    rw [h2]
    decide
  | cons h t =>
    have hcanon : canonJoin c = joinSep '\n' (lstrip h :: dropTrailingBlanks t) := by
      unfold canonJoin
      rw [hd]
    have hmemh : h ∈ c := by
      have h1 : h ∈ c.dropWhile isBlankL := by rw [hd]; exact List.mem_cons_self _ _
      exact List.Sublist.mem h1 (List.dropWhile_sublist _)
    have hmemt : ∀ l ∈ t, l ∈ c := by
      intro l hl
      have h1 : l ∈ c.dropWhile isBlankL := by rw [hd]; exact List.mem_cons_of_mem _ hl
      exact List.Sublist.mem h1 (List.dropWhile_sublist _)
    have hbh : isBlankL h = false := dropWhile_head_not _ c h t hd
    have hfh : rstrip h = h := hrfix h hmemh
    have hneh : h ≠ [] := by
      intro he
      rw [he] at hbh
      exact absurd hbh (by decide)
    have hlhne : lstrip h ≠ [] := lstrip_ne_nil_of_rfixed hfh hneh
    have hlhfix : rstrip (lstrip h) = lstrip h := rstrip_lstrip_of_rfixed hfh
    have hlhnb : isBlankL (lstrip h) = false := by
      cases hq : isBlankL (lstrip h)
      · rfl
      · exact absurd ((isBlankL_iff_nil_of_rfixed hlhfix).mp hq) hlhne
    set L := lstrip h :: dropTrailingBlanks t with hL
    have hLrfix : ∀ l ∈ L, rstrip l = l := by
      intro l hl
      rcases List.mem_cons.mp (hL ▸ hl) with h1 | h1
      · rw [h1]; exact hlhfix
      · exact hrfix l (hmemt l (mem_dropTrailingBlanks h1))
    have hLnl : ∀ l ∈ L, '\n' ∉ l ∧ '\r' ∉ l := by
      intro l hl
      rcases List.mem_cons.mp (hL ▸ hl) with h1 | h1
      · subst h1
        have h2 := hnl h hmemh
        exact ⟨fun hm => h2.1 (mem_lstrip hm), fun hm => h2.2 (mem_lstrip hm)⟩
      · exact hnl l (hmemt l (mem_dropTrailingBlanks h1))
    have hchaint : NoTwoBlank t := by
      have hsuffix : c.dropWhile isBlankL <:+ c := List.dropWhile_suffix _
      rw [hd] at hsuffix
      have hch1 : NoTwoBlank (h :: t) := List.Chain'.suffix hchain hsuffix
      exact (List.chain'_cons'.mp hch1).2
    have hchainD : NoTwoBlank (dropTrailingBlanks t) := by
      have hdec : dropTrailingBlanks t ++ (t.reverse.takeWhile isBlankL).reverse = t := by
        unfold dropTrailingBlanks
        rw [← List.reverse_append, List.takeWhile_append_dropWhile, List.reverse_reverse]
      rw [← hdec] at hchaint
      exact (List.chain'_append.mp hchaint).1
    have hLchain : NoTwoBlank L := by
      rw [hL, NoTwoBlank, List.chain'_cons']
      constructor
      · intro y _ hcon
        rw [hlhnb] at hcon
        exact Bool.false_ne_true hcon.1
      · exact hchainD
    have hcanonL : canonJoin L = joinSep '\n' L := by
      unfold canonJoin
      have hdw : L.dropWhile isBlankL = L := by
        rw [hL]
        exact List.dropWhile_cons_of_neg (by rw [hlhnb]; exact Bool.false_ne_true)
      rw [hdw, hL]
      show joinSep '\n' (lstrip (lstrip h) :: dropTrailingBlanks (dropTrailingBlanks t)) = _
      rw [lstrip_lstrip, dropTrailingBlanks_idem]
    have hnormc : _normalize_python code = joinSep '\n' L ++ ['\n'] := by
      rw [hnorm, hstrip, hcanon, hL]
    calc _normalize_python (_normalize_python code)
        = _normalize_python (joinSep '\n' L ++ ['\n']) := by rw [hnormc]
      _ = strip (joinSep '\n'
            (collapseGo ((splitlines (joinSep '\n' L ++ ['\n'])).map rstrip) 0)) ++ ['\n'] := rfl
      _ = strip (joinSep '\n' (collapseGo (L.map rstrip) 0)) ++ ['\n'] := by
            rw [splitlines_joinSep_newline L (by rw [hL]; exact List.cons_ne_nil _ _) hLnl]
      _ = strip (joinSep '\n' (collapseGo L 0)) ++ ['\n'] := by
            rw [map_rstrip_eq_self hLrfix]
      _ = strip (joinSep '\n' L) ++ ['\n'] := by
            rw [collapseGo_eq_self_of_chain hLchain]
      _ = canonJoin L ++ ['\n'] := by rw [strip_joinSep_canon L hLrfix]
      _ = joinSep '\n' L ++ ['\n'] := by rw [hcanonL]
      _ = _normalize_python code := by rw [← hnormc]
